import Mathlib

/-!
Verification of the agate Gemini server (src/main.rs) against its
natural-language specification.  The request parser (`RequestHandle::parse_request`),
the path resolver and response builder (`RequestHandle::send_response`) and the
directory lister (`RequestHandle::list_directory`) are shallowly embedded below.
Strings are modelled as `List Char`, byte sequences as `List Nat`, filesystem
paths as `List (List Char)` (one entry per path component).  Filesystem state,
the metadata store (`mod metadata`, external to main.rs) and the external
`url` / `mime_guess` crates appear as explicit function parameters, so every
theorem quantifies over their behaviour.
-/

/-- Convert a string literal to the `List Char` representation used throughout. -/
def str (s : String) : List Char := s.toList

/-! ### Filesystem path components (model of `std::path` on Unix) -/

/-- One component of a filesystem path, as produced by `std::path::Path::components`
(Unix flavour: no `Prefix` / drive components). -/
inductive PathComponent where
  | rootDir
  | curDir
  | parentDir
  | normal (name : List Char)
deriving DecidableEq, Repr

/-- Whether a component is a `Normal` component. -/
def PathComponent.isNormal : PathComponent → Bool
  | .normal _ => true
  | _ => false

/-- Split a character list at every `'/'` separator (model of `str::split('/')`):
the result is always non-empty, and contains an empty piece for every run
boundary, exactly like Rust's splitter. -/
def splitSep : List Char → List (List Char)
  | [] => [[]]
  | c :: rest =>
    if c = '/' then [] :: splitSep rest
    else (c :: (splitSep rest).headD []) :: (splitSep rest).tail

/-- Model of `std::path::Path::components` on Unix: a leading separator yields
`RootDir`; empty pieces and interior `"."` pieces are normalised away; a leading
`"."` (the path `"."` or a `"./"` start) yields `CurDir`; `".."` pieces are
`ParentDir`; everything else is `Normal`. -/
def pathComponents (p : List Char) : List PathComponent :=
  let pieces := ((splitSep p).filter (· ≠ [])).filter (· ≠ ['.'])
  let body := pieces.map fun q => if q = ['.', '.'] then PathComponent.parentDir else PathComponent.normal q
  if p.headD ' ' = '/' then PathComponent.rootDir :: body
  else if p = ['.'] ∨ p.take 2 = ['.', '/'] then PathComponent.curDir :: body
  else body

/-- Model of `decoded.ends_with(path::is_separator)` on Unix. -/
def endsWithSep (p : List Char) : Bool := p.getLast? = some '/'

/-! ### Percent-decoding and UTF-8 (models of the `percent_encoding` crate and
`str::from_utf8` validation) -/

/-- ASCII hex digit test on a byte. -/
def isHexDigit (b : Nat) : Bool :=
  (48 ≤ b && b ≤ 57) || (65 ≤ b && b ≤ 70) || (97 ≤ b && b ≤ 102)

/-- Value of an ASCII hex digit byte. -/
def hexVal (b : Nat) : Nat :=
  if b ≤ 57 then b - 48 else if b ≤ 70 then b - 55 else b - 87

/-- Model of `percent_encoding::percent_decode`: a `'%'` (byte 37) followed by
two hex digits becomes the denoted byte; otherwise bytes pass through verbatim. -/
def percentDecodeBytes : List Nat → List Nat
  | 37 :: h :: l :: rest =>
    if isHexDigit h && isHexDigit l then (hexVal h * 16 + hexVal l) :: percentDecodeBytes rest
    else 37 :: percentDecodeBytes (h :: l :: rest)
  | b :: rest => b :: percentDecodeBytes rest
  | [] => []

/-- UTF-8 encoding of a single scalar value. -/
def utf8EncodeChar (c : Char) : List Nat :=
  let n := c.toNat
  if n < 128 then [n]
  else if n < 2048 then [192 + n / 64, 128 + n % 64]
  else if n < 65536 then [224 + n / 4096, 128 + (n / 64) % 64, 128 + n % 64]
  else [240 + n / 262144, 128 + (n / 4096) % 64, 128 + (n / 64) % 64, 128 + n % 64]

/-- UTF-8 encoding of a string (the bytes a Rust `str` holds). -/
def utf8Encode (s : List Char) : List Nat := (s.map utf8EncodeChar).flatten

/-- Continuation-byte test. -/
def isCont (b : Nat) : Bool := 128 ≤ b && b ≤ 191

/-- Strict UTF-8 decoding (model of `str::from_utf8` / `Cow::decode_utf8`):
rejects overlong forms, surrogates and out-of-range scalars. -/
def utf8Decode : List Nat → Option (List Char)
  | [] => some []
  | b :: rest =>
    if b < 128 then
      (utf8Decode rest).map (Char.ofNat b :: ·)
    else if 194 ≤ b && b ≤ 223 then
      match rest with
      | b2 :: rest' =>
        if isCont b2 then (utf8Decode rest').map (Char.ofNat ((b - 192) * 64 + (b2 - 128)) :: ·)
        else none
      | [] => none
    else if 224 ≤ b && b ≤ 239 then
      match rest with
      | b2 :: b3 :: rest' =>
        if isCont b2 && isCont b3 && (b ≠ 224 || 160 ≤ b2) && (b ≠ 237 || b2 ≤ 159) then
          (utf8Decode rest').map
            (Char.ofNat ((b - 224) * 4096 + (b2 - 128) * 64 + (b3 - 128)) :: ·)
        else none
      | _ => none
    else if 240 ≤ b && b ≤ 244 then
      match rest with
      | b2 :: b3 :: b4 :: rest' =>
        if isCont b2 && isCont b3 && isCont b4 && (b ≠ 240 || 144 ≤ b2) && (b ≠ 244 || b2 ≤ 143) then
          (utf8Decode rest').map
            (Char.ofNat ((b - 240) * 262144 + (b2 - 128) * 4096 + (b3 - 128) * 64 + (b4 - 128)) :: ·)
        else none
      | _ => none
    else none

/-- Model of `percent_decode_str(segment).decode_utf8()`: percent-decode the
segment's UTF-8 bytes, then re-validate them as UTF-8. -/
def decodeSegment (raw : List Char) : Option (List Char) :=
  utf8Decode (percentDecodeBytes (utf8Encode raw))

/-! ### Path resolution (segment loop of `RequestHandle::send_response`,
src/main.rs lines 434-464) -/

/-- Why segment resolution stopped: `badEncoding` models the `?` propagation of
a percent-decode/UTF-8 failure (no response is sent at all), `notFound` models
the early `51 Not found, sorry.` responses. -/
inductive ResolveErr where
  | badEncoding
  | notFound
deriving DecidableEq, Repr

/-- Processing of one raw URL path segment (loop body, src/main.rs lines 436-464):
percent-decode, read the decoded text as path components, require exactly one
`Normal` component (zero components are skipped), and reject a decoded segment
ending in a path separator. -/
def processSegment (acc : List (List Char)) (rawSeg : List Char) :
    Except ResolveErr (List (List Char)) :=
  match decodeSegment rawSeg with
  | none => .error .badEncoding
  | some decoded =>
    match pathComponents decoded with
    | [] =>
      if endsWithSep decoded then .error .notFound else .ok acc
    | [PathComponent.normal c] =>
      if endsWithSep decoded then .error .notFound else .ok (acc ++ [c])
    | _ => .error .notFound

/-- The whole segment loop: fold `processSegment` over the raw segments,
accumulating pushed components. -/
def resolveFrom (acc : List (List Char)) : List (List Char) → Except ResolveErr (List (List Char))
  | [] => .ok acc
  | s :: rest =>
    match processSegment acc s with
    | .error e => .error e
    | .ok acc' => resolveFrom acc' rest

/-! ### Server configuration and URL model -/

/-- The subset of the `Args` configuration that `send_response` consults
(src/main.rs lines 75-85).  The content root is kept as a component list. -/
structure Args where
  content_dir : List (List Char)
  hostnames : List (List Char)
  serve_secret : Bool
deriving DecidableEq, Repr

/-- The fields of a parsed `url::Url` that `parse_request` / `send_response`
consult.  `pathRaw` is the serialized path (empty or `'/'`-prefixed for URLs
with a host); `query` is the serialized query string without the `'?'`. -/
structure GemUrl where
  scheme : List Char
  username : List Char
  hasPassword : Bool
  hasFragment : Bool
  host : Option (List Char)
  port : Option Nat
  pathRaw : List Char
  query : Option (List Char)
deriving DecidableEq, Repr

/-- Model of `Url::path_segments` (url crate 2.x): `Some` of the split of the
path after a leading `'/'`, otherwise `None`. -/
def urlSegments (u : GemUrl) : Option (List (List Char)) :=
  if u.pathRaw.headD ' ' = '/' then some (splitSep u.pathRaw.tail) else none

/-- Model of `Url::set_path`: replace the serialized path. -/
def setPath (u : GemUrl) (p : List Char) : GemUrl := { u with pathRaw := p }

/-- Model of `Url::as_str` for a validated gemini URL (scheme `gemini`, host
present, no userinfo, no fragment). -/
def urlAsStr (u : GemUrl) : List Char :=
  str "gemini://" ++ u.host.getD []
    ++ (match u.port with
        | some p => ':' :: Nat.toDigits 10 p
        | none => [])
    ++ u.pathRaw
    ++ (match u.query with
        | some q => '?' :: q
        | none => [])

/-- The vhost subdirectory pushed between the content root and the URL
segments: the request's host, but only when more than one hostname is
configured (src/main.rs lines 429-432). -/
def hostDir (cfg : Args) (u : GemUrl) : List (List Char) :=
  if 1 < cfg.hostnames.length then [u.host.getD []] else []

/-- The complete path resolver: content root, optional vhost directory, then
the accepted segment components. -/
def resolvePath (cfg : Args) (u : GemUrl) : Except ResolveErr (List (List Char)) :=
  match urlSegments u with
  | none => .ok (cfg.content_dir ++ hostDir cfg u)
  | some segs => (resolveFrom [] segs).map (fun comps => cfg.content_dir ++ hostDir cfg u ++ comps)

/-! ### Metadata store and filesystem model -/

/-- `metadata::PresetMeta` as pattern-matched by src/main.rs lines 502-534. -/
inductive PresetMeta where
  | FullHeader (status : Nat) (meta : List Char)
  | FullMime (mime : List Char)
  | Parameters (params : List Char)
deriving DecidableEq, Repr

/-- The two queries `send_response` makes of the shared `metadata::FileOptions`
store: `hasRuleFor` models `FileOptions::exists` (is there a configured rule
for exactly this path), `get` models `FileOptions::get`.  The store lives in
`mod metadata` (outside main.rs), so it is kept abstract: every theorem holds
for an arbitrary store. -/
structure FileOptions where
  hasRuleFor : List (List Char) → Bool
  get : List (List Char) → PresetMeta

/-- Filesystem as observed by `send_response` / `list_directory`:
`pathExists` models `tokio::fs::metadata(..).is_ok()` and `Path::exists`,
`isDir` models `metadata.is_dir()`, `openable` models whether
`tokio::fs::File::open` succeeds, `entries` models `tokio::fs::read_dir`
(name and is-directory flag per entry, in enumeration order). -/
structure Fs where
  pathExists : List (List Char) → Bool
  isDir : List (List Char) → Bool
  openable : List (List Char) → Bool
  entries : List (List Char) → List (List Char × Bool)

/-! ### Responses and filesystem-access trace -/

/-- What the server streams after the header: a file's contents, or the
generated directory-listing lines. -/
inductive Body where
  | file (path : List (List Char))
  | listing (lines : List (List Char))
deriving DecidableEq, Repr

/-- One response: status code, meta text, optional body.  `none` at the
`Option Response` level means the connection was dropped without any header
(the `?`-propagated decode error path). -/
structure Response where
  status : Nat
  meta : List Char
  body : Option Body
deriving DecidableEq, Repr

/-- Filesystem operations attempted while handling a request, in order. -/
inductive FsOp where
  | stat (path : List (List Char))
  | checkExists (path : List (List Char))
  | openFile (path : List (List Char))
  | readDir (path : List (List Char))
deriving DecidableEq, Repr

/-! ### Directory listing (`RequestHandle::list_directory`, src/main.rs 542-581) -/

/-- Lexicographic order on character lists as a Bool, matching Rust's `Ord` for
`String` (byte-lexicographic on UTF-8, which coincides with scalar-value order). -/
def lexLe : List Char → List Char → Bool
  | [], _ => true
  | _ :: _, [] => false
  | a :: as, b :: bs => if a < b then true else if a = b then lexLe as bs else false

/-- The `ENCODE_SET` of `list_directory` at byte level:
<https://url.spec.whatwg.org/#path-percent-encode-set> = controls, space, `"`,
`#`, `<`, `>`, `?`, backtick, and both curly braces; the `percent_encoding`
crate additionally always encodes every non-ASCII byte. -/
def shouldEncodeByte (b : Nat) : Bool :=
  b < 32 || b == 127 || b == 32 || b == 34 || b == 35 || b == 60 || b == 62 || b == 63
    || b == 96 || b == 123 || b == 125 || 128 ≤ b

/-- Uppercase hex digit character for a value below 16. -/
def hexDigitChar (n : Nat) : Char :=
  if n < 10 then Char.ofNat (48 + n) else Char.ofNat (55 + n)

/-- Model of `percent_encode(name.as_bytes(), &ENCODE_SET)`: encode the UTF-8
bytes, expanding set members to `%XX` with uppercase hex. -/
def percentEncodeName (name : List Char) : List Char :=
  ((utf8Encode name).map fun b =>
    if shouldEncodeByte b then ['%', hexDigitChar (b / 16), hexDigitChar (b % 16)]
    else [Char.ofNat b]).flatten

/-- One listing line for a visible entry name (src/main.rs lines 570-573): if
percent-encoding changed nothing the name doubles as the link target. -/
def listingLine (name : List Char) : List Char :=
  let url := percentEncodeName name
  if url = name then str "=> " ++ name ++ ['\n']
  else str "=> " ++ url ++ [' '] ++ name ++ ['\n']

/-- The line an entry contributes, or `none` for dotted names; directories get
a trailing separator appended to the visible name first. -/
def entryLine (entry : List Char × Bool) : Option (List Char) :=
  if entry.1.headD ' ' = '.' then none
  else some (listingLine (if entry.2 then entry.1 ++ ['/'] else entry.1))

/-- `RequestHandle::list_directory`: enumerate, drop dotted names, build one
line per remaining entry, and sort the lines before transmission. -/
def list_directory (fs : Fs) (path : List (List Char)) : List (List Char) :=
  ((fs.entries path).filterMap entryLine).mergeSort lexLe

/-! ### MIME selection and the response builder
(`RequestHandle::send_response`, src/main.rs 478-540) -/

/-- Model of `Path::extension` applied to a file name: the portion after the
last `'.'`, unless there is no `'.'` or the only `'.'` is the leading one. -/
def extensionOf (name : List Char) : Option (List Char) :=
  let ext := name.reverse.takeWhile (fun c => c ≠ '.')
  if ext.length = name.length then none
  else if name.length - ext.length - 1 = 0 then none
  else some ext.reverse

/-- The meta value of a success response (src/main.rs lines 520-534): a
`FullMime` override verbatim, else `text/gemini` for the reserved `gmi`
extension or the guessed type, with the configured parameters appended.
`mimeGuess` models `mime_guess::from_path(..).first_or_octet_stream()`.
The `FullHeader` case is unreachable here (handled before the file is opened). -/
def mimeFor (mimeGuess : List (List Char) → List Char) (data : PresetMeta)
    (path : List (List Char)) : List Char :=
  match data with
  | .FullHeader _ _ => []
  | .FullMime mime => mime
  | .Parameters params =>
    if extensionOf (path.getLastD []) = some (str "gmi") then str "text/gemini" ++ params
    else mimeGuess path ++ params

/-- The metadata-override and file-serving stage (src/main.rs lines 502-539):
a `FullHeader` override short-circuits without touching the file; otherwise the
file is opened (a failed open yields `51` after the fact) and served with the
computed MIME value. -/
def metaStage (fs : Fs) (mm : FileOptions) (mimeGuess : List (List Char) → List Char)
    (path : List (List Char)) : Option Response × List FsOp :=
  match mm.get path with
  | .FullHeader status meta => (some ⟨status, meta, none⟩, [])
  | data =>
    if fs.openable path then
      (some ⟨20, mimeFor mimeGuess data path, some (.file path)⟩, [.openFile path])
    else
      (some ⟨51, str "Not found, sorry.", none⟩, [.openFile path])

/-- Everything `send_response` does after the candidate path is fixed
(src/main.rs lines 478-539): directory dispatch (redirect without trailing
slash; index document; opt-in listing; disabled-index 51) and then the
metadata/file stage. -/
def respondForPath (fs : Fs) (mm : FileOptions) (mimeGuess : List (List Char) → List Char)
    (u : GemUrl) (path : List (List Char)) : Option Response × List FsOp :=
  if fs.pathExists path && fs.isDir path then
    if endsWithSep u.pathRaw || u.pathRaw.isEmpty then
      let pathI := path ++ [str "index.gmi"]
      let marker := path ++ [str ".directory-listing-ok"]
      if fs.pathExists pathI then
        let tail := metaStage fs mm mimeGuess pathI
        (tail.1, [.stat path, .checkExists pathI] ++ tail.2)
      else if fs.pathExists marker then
        (some ⟨20, str "text/gemini", some (.listing (list_directory fs path))⟩,
          [.stat path, .checkExists pathI, .checkExists marker, .readDir path])
      else
        (some ⟨51, str "Directory index disabled.", none⟩,
          [.stat path, .checkExists pathI, .checkExists marker])
    else
      (some ⟨31, urlAsStr (setPath u (u.pathRaw ++ ['/'])), none⟩, [.stat path])
  else
    let tail := metaStage fs mm mimeGuess path
    (tail.1, [.stat path] ++ tail.2)

/-- `RequestHandle::send_response` in full: build the candidate path from the
URL segments, apply the secret-file rule on the raw segments, then dispatch. -/
def send_response (cfg : Args) (fs : Fs) (mm : FileOptions)
    (mimeGuess : List (List Char) → List Char) (u : GemUrl) :
    Option Response × List FsOp :=
  let base := cfg.content_dir ++ hostDir cfg u
  match urlSegments u with
  | none => respondForPath fs mm mimeGuess u base
  | some segs =>
    match resolveFrom [] segs with
    | .error .badEncoding => (none, [])
    | .error .notFound => (some ⟨51, str "Not found, sorry.", none⟩, [])
    | .ok comps =>
      let path := base ++ comps
      if !cfg.serve_secret && !mm.hasRuleFor path
          && segs.any (fun s => s.headD ' ' == '.') then
        (some ⟨52, str "If I told you, it would not be a secret.", none⟩, [])
      else respondForPath fs mm mimeGuess u path

/-! ### Request parsing (`RequestHandle::parse_request`, src/main.rs 353-423) -/

/-- Does the buffer end with CR LF (`request[..len].ends_with(b"\r\n")`)? -/
def endsCRLF (l : List Nat) : Bool := l.reverse.take 2 == [10, 13]

/-- The bounded read loop (src/main.rs lines 357-379).  `request` is the data
accumulated in the fixed 1026-byte buffer; `chunks` models the connection: each
`stream.read` yields as much of the front chunk as fits in the remaining buffer
space (any remainder stays on the connection), and an exhausted (or empty)
chunk list yields a zero-byte read, i.e. end of stream.  Returns the final
buffer contents: `ok` when a read left the buffer ending in CR LF, `error`
(status 59) when a zero-byte read arrived first. -/
def readLoop : List Nat → List (List Nat) → Except (List Nat) (List Nat)
  | request, [] =>
    if endsCRLF request then .ok request else .error request
  | request, c :: rest =>
    let taken := c.take (1026 - request.length)
    let request' := request ++ taken
    if endsCRLF request' then .ok request'
    else if taken.isEmpty then .error request'
    else if (c.drop (1026 - request.length)).isEmpty then readLoop request' rest
    else readLoop request' ((c.drop (1026 - request.length)) :: rest)
termination_by request _ => 1027 - request.length
decreasing_by
  all_goals
    rename_i htaken _
    have hne : List.take (1026 - request.length) c ≠ [] := by
      intro hnil
      apply htaken
      show (List.take (1026 - request.length) c).isEmpty = true
      rw [hnil]
      rfl
    have hlt : request.length < 1026 := by
      by_contra hge
      apply hne
      have hz : 1026 - request.length = 0 := Nat.sub_eq_zero_of_le (Nat.le_of_not_lt hge)
      rw [hz, List.take_zero]
    have hpos : 0 < (List.take (1026 - request.length) c).length := List.length_pos.mpr hne
    simp only [List.length_append]
    omega

/-- The number of bytes left in the buffer when the read loop stops. -/
def readBufLen (chunks : List (List Nat)) : Nat :=
  match readLoop [] chunks with
  | .error b => b.length
  | .ok b => b.length

/-- Is there a CR LF terminator ending within the first 1026 bytes of the
byte stream?  (`false` means the request line is over-long or unterminated:
more than 1024 bytes precede any CR LF, or there is none at all.) -/
def earlyTerminator (flat : List Nat) : Bool :=
  (List.range 1027).any fun n => endsCRLF (flat.take n)

/-- `RequestHandle::parse_request`: run the read loop, strip the CR LF, decode
as UTF-8, parse as a URL (`urlParse` models `Url::parse`), then validate
scheme, userinfo/fragment, host and port exactly as src/main.rs lines 391-422. -/
def parse_request (urlParse : List Char → Option GemUrl) (cfg : Args) (localPort : Nat)
    (chunks : List (List Nat)) : Except (Nat × List Char) GemUrl :=
  match readLoop [] chunks with
  | .error _ => .error (59, str "Request ended unexpectedly")
  | .ok buf =>
    match utf8Decode buf.dropLast.dropLast with
    | none => .error (59, str "Non-UTF-8 request")
    | some requestLine =>
      match urlParse requestLine with
      | none => .error (59, str "Invalid URL")
      | some url =>
        if url.scheme ≠ str "gemini" then .error (53, str "Unsupported URL scheme")
        else if url.hasPassword || !url.username.isEmpty || url.hasFragment then
          .error (59, str "URL contains fragment or userinfo")
        else
          match url.host with
          | some h =>
            if !cfg.hostnames.isEmpty && !cfg.hostnames.contains h then
              .error (53, str "Proxy request refused")
            else
              match url.port with
              | some p => if p ≠ localPort then .error (53, str "proxy request refused") else .ok url
              | none => .ok url
          | none => .error (59, str "URL does not contain a host")

/-- `RequestHandle::handle`: parse the request; an early failure sends only the
error header (no filesystem access at all), success dispatches to
`send_response`. -/
def handle (urlParse : List Char → Option GemUrl) (mimeGuess : List (List Char) → List Char)
    (cfg : Args) (fs : Fs) (mm : FileOptions) (localPort : Nat)
    (chunks : List (List Nat)) : Option Response × List FsOp :=
  match parse_request urlParse cfg localPort chunks with
  | .error (status, msg) => (some ⟨status, msg, none⟩, [])
  | .ok url => send_response cfg fs mm mimeGuess url

/-! ### Derived predicates used in the theorem statements -/

/-- A component name the resolver can append: non-empty, not a dot name, and
containing no separator. -/
def goodName (c : List Char) : Prop :=
  c ≠ [] ∧ c ≠ ['.'] ∧ c ≠ ['.', '.'] ∧ '/' ∉ c

instance (c : List Char) : Decidable (goodName c) := by
  unfold goodName; infer_instance

/-- The rejected decoded-segment shapes of claim C2: more than one component,
some non-`Normal` component, or a trailing separator. -/
def badShape (d : List Char) : Prop :=
  1 < (pathComponents d).length
    ∨ (∃ comp ∈ pathComponents d, comp.isNormal = false)
    ∨ endsWithSep d = true

instance (d : List Char) : Decidable (badShape d) := by
  unfold badShape; infer_instance

/-- The request resolves (no early 51/52) to candidate path `p`: either the URL
has no segments and `p` is the root (plus vhost directory), or the segment loop
accepted and the secret-file rule did not fire. -/
def resolvesTo (cfg : Args) (mm : FileOptions) (u : GemUrl) (p : List (List Char)) : Prop :=
  (urlSegments u = none ∧ p = cfg.content_dir ++ hostDir cfg u)
    ∨ (∃ segs comps, urlSegments u = some segs ∧ resolveFrom [] segs = .ok comps
        ∧ p = cfg.content_dir ++ hostDir cfg u ++ comps
        ∧ (!cfg.serve_secret && !mm.hasRuleFor p
            && segs.any (fun s => s.headD ' ' == '.')) = false)

/-- The path on which `send_response` performs its metadata lookup, when it
reaches one: the candidate path itself when it is not an existing directory,
or the pushed index document when the directory branch falls through. -/
def metaTarget (fs : Fs) (u : GemUrl) (p : List (List Char)) : Option (List (List Char)) :=
  if fs.pathExists p && fs.isDir p then
    if endsWithSep u.pathRaw || u.pathRaw.isEmpty then
      if fs.pathExists (p ++ [str "index.gmi"]) then some (p ++ [str "index.gmi"])
      else none
    else none
  else some p

/-! ### Helper lemmas: splitting and path components -/

theorem splitSep_ne_nil (l : List Char) : splitSep l ≠ [] := by
  cases l with
  | nil => simp [splitSep]
  | cons c rest =>
    unfold splitSep
    split <;> simp

theorem not_sep_mem_splitSep (l : List Char) :
    ∀ q ∈ splitSep l, '/' ∉ q := by
  induction l with
  | nil =>
    intro q hq
    simp [splitSep] at hq
    simp [hq]
  | cons c rest ih =>
    intro q hq
    unfold splitSep at hq
    by_cases hc : c = '/'
    · rw [if_pos hc] at hq
      rcases List.mem_cons.mp hq with h | h
      · simp [h]
      · exact ih q h
    · rw [if_neg hc] at hq
      cases hsp : splitSep rest with
      | nil => exact absurd hsp (splitSep_ne_nil rest)
      | cons p ps =>
        rw [hsp] at hq
        simp only [List.headD_cons, List.tail_cons] at hq
        rcases List.mem_cons.mp hq with h | h
        · subst h
          intro hmem
          rcases List.mem_cons.mp hmem with h' | h'
          · exact hc h'.symm
          · exact ih p (hsp ▸ List.mem_cons_self p ps) h'
        · exact ih q (hsp ▸ List.mem_cons_of_mem p h)

theorem goodName_of_single_normal (d : List Char) (c : List Char)
    (h : pathComponents d = [PathComponent.normal c]) : goodName c := by
  unfold pathComponents at h
  simp only at h
  split at h
  · exact absurd (List.head_eq_of_cons_eq h) (by simp)
  · split at h
    · exact absurd (List.head_eq_of_cons_eq h) (by simp)
    · -- body = [normal c] with body = pieces.map f
      rename_i h1 h2
      cases hp : ((splitSep d).filter (· ≠ [])).filter (· ≠ ['.']) with
      | nil => rw [hp] at h; simp at h
      | cons q qs =>
        rw [hp] at h
        cases qs with
        | cons q2 qs2 => simp at h
        | nil =>
          simp only [List.map_cons, List.map_nil] at h
          have hq : (if q = ['.', '.'] then PathComponent.parentDir else PathComponent.normal q)
              = PathComponent.normal c := List.head_eq_of_cons_eq h
          have hq' : q ∈ ((splitSep d).filter (· ≠ [])).filter (· ≠ ['.']) := by
            rw [hp]; exact List.mem_cons_self _ _
          have hmem := List.mem_filter.mp hq'
          have hmem2 := List.mem_filter.mp hmem.1
          have hne_nil : q ≠ [] := by simpa using hmem2.2
          have hne_dot : q ≠ ['.'] := by simpa using hmem.2
          by_cases hdd : q = ['.', '.']
          · rw [if_pos hdd] at hq; exact absurd hq (by simp)
          · rw [if_neg hdd] at hq
            have hcq : q = c := by injection hq
            subst hcq
            exact ⟨hne_nil, hne_dot, hdd, not_sep_mem_splitSep d q hmem2.1⟩

/-! ### Helper lemmas: segment processing -/

theorem processSegment_ok (acc acc' : List (List Char)) (s : List Char)
    (h : processSegment acc s = .ok acc') :
    acc' = acc ∨ ∃ c, goodName c ∧ acc' = acc ++ [c] := by
  unfold processSegment at h
  split at h
  · exact absurd h (by simp)
  · rename_i decoded hdec
    split at h
    · split at h
      · exact absurd h (by simp)
      · left
        injection h with h
        exact h.symm
    · rename_i c hpc
      split at h
      · exact absurd h (by simp)
      · right
        refine ⟨c, goodName_of_single_normal decoded c hpc, ?_⟩
        injection h with h
        exact h.symm
    · exact absurd h (by simp)

theorem resolveFrom_goodName (segs : List (List Char)) :
    ∀ acc comps, (∀ c ∈ acc, goodName c) → resolveFrom acc segs = .ok comps →
      ∀ c ∈ comps, goodName c := by
  induction segs with
  | nil =>
    intro acc comps hacc h
    unfold resolveFrom at h
    injection h with h
    exact h ▸ hacc
  | cons s rest ih =>
    intro acc comps hacc h
    unfold resolveFrom at h
    split at h
    · exact absurd h (by simp)
    · rename_i acc' hps
      rcases processSegment_ok acc acc' s hps with heq | ⟨c, hc, heq⟩
      · exact ih acc' comps (heq ▸ hacc) h
      · refine ih acc' comps ?_ h
        intro x hx
        rw [heq] at hx
        rcases List.mem_append.mp hx with hx | hx
        · exact hacc x hx
        · rw [List.mem_singleton.mp hx]; exact hc

theorem processSegment_badShape (acc : List (List Char)) (s d : List Char)
    (hdec : decodeSegment s = some d) (hbad : badShape d) :
    processSegment acc s = .error .notFound := by
  unfold processSegment
  rw [hdec]
  cases hpc : pathComponents d with
  | nil =>
    have hsep : endsWithSep d = true := by
      rcases hbad with h | ⟨comp, hc, _⟩ | h
      · rw [hpc] at h; simp at h
      · rw [hpc] at hc; simp at hc
      · exact h
    simp [hpc, hsep]
  | cons c1 tail =>
    cases tail with
    | nil =>
      cases c1 with
      | normal c =>
        have hsep : endsWithSep d = true := by
          rcases hbad with h | ⟨comp, hc, hn⟩ | h
          · rw [hpc] at h; simp at h
          · rw [hpc] at hc
            rw [List.mem_singleton.mp hc] at hn
            simp [PathComponent.isNormal] at hn
          · exact h
        simp [hpc, hsep]
      | rootDir => simp [hpc]
      | curDir => simp [hpc]
      | parentDir => simp [hpc]
    | cons c2 tail2 => cases c1 <;> simp [hpc]

theorem processSegment_not_bad (acc : List (List Char)) (s d : List Char)
    (hdec : decodeSegment s = some d) (hnotbad : ¬ badShape d) :
    ∃ acc', processSegment acc s = .ok acc' := by
  unfold processSegment
  rw [hdec]
  have hsep : endsWithSep d = false := by
    rcases Bool.eq_false_or_eq_true (endsWithSep d) with h | h
    · exact absurd (Or.inr (Or.inr h)) hnotbad
    · exact h
  cases hpc : pathComponents d with
  | nil => exact ⟨acc, by simp [hpc, hsep]⟩
  | cons c1 tail =>
    cases tail with
    | nil =>
      cases c1 with
      | normal c => exact ⟨acc ++ [c], by simp [hpc, hsep]⟩
      | rootDir =>
        exact absurd (Or.inr (Or.inl ⟨.rootDir, by rw [hpc]; simp, rfl⟩)) hnotbad
      | curDir =>
        exact absurd (Or.inr (Or.inl ⟨.curDir, by rw [hpc]; simp, rfl⟩)) hnotbad
      | parentDir =>
        exact absurd (Or.inr (Or.inl ⟨.parentDir, by rw [hpc]; simp, rfl⟩)) hnotbad
    | cons c2 tail2 =>
      exact absurd (Or.inl (by rw [hpc]; simp)) hnotbad

theorem resolveFrom_notFound (segs : List (List Char)) :
    ∀ acc, (∀ s ∈ segs, (decodeSegment s).isSome)
      → (∃ s ∈ segs, ∃ d, decodeSegment s = some d ∧ badShape d)
      → resolveFrom acc segs = .error .notFound := by
  induction segs with
  | nil =>
    intro acc _ hbad
    simp at hbad
  | cons s rest ih =>
    intro acc hdec hbad
    by_cases hs : ∃ d, decodeSegment s = some d ∧ badShape d
    · obtain ⟨d, hd, hb⟩ := hs
      unfold resolveFrom
      rw [processSegment_badShape acc s d hd hb]
    · have hsome : (decodeSegment s).isSome := hdec s (List.mem_cons_self _ _)
      obtain ⟨d, hd⟩ := Option.isSome_iff_exists.mp hsome
      have hnb : ¬ badShape d := fun hb => hs ⟨d, hd, hb⟩
      obtain ⟨acc', hok⟩ := processSegment_not_bad acc s d hd hnb
      unfold resolveFrom
      rw [hok]
      simp only
      apply ih acc'
      · exact fun x hx => hdec x (List.mem_cons_of_mem s hx)
      · rcases hbad with ⟨x, hx, d', hd', hb'⟩
        rcases List.mem_cons.mp hx with hxs | hxr
        · subst hxs
          rw [hd] at hd'
          injection hd' with hd'
          exact absurd (hd' ▸ hb') hnb
        · exact ⟨x, hxr, d', hd', hb'⟩

/-! ### Helper lemmas: the bounded read loop -/

theorem prefix_append_of_prefix {α : Type} {t l : List α} (x : List α) (h : t <+: l) :
    x ++ t <+: x ++ l := by
  obtain ⟨r, hr⟩ := h
  exact ⟨r, by rw [List.append_assoc, hr]⟩

theorem readLoop_nil (request : List Nat) :
    readLoop request [] = if endsCRLF request then .ok request else .error request := by
  rw [readLoop]

theorem readLoop_cons (request c : List Nat) (rest : List (List Nat)) :
    readLoop request (c :: rest) =
      if endsCRLF (request ++ c.take (1026 - request.length)) then
        .ok (request ++ c.take (1026 - request.length))
      else if (c.take (1026 - request.length)).isEmpty then
        .error (request ++ c.take (1026 - request.length))
      else if (c.drop (1026 - request.length)).isEmpty then
        readLoop (request ++ c.take (1026 - request.length)) rest
      else
        readLoop (request ++ c.take (1026 - request.length))
          ((c.drop (1026 - request.length)) :: rest) := by
  rw [readLoop]

theorem readLoop_spec (request : List Nat) (chunks : List (List Nat)) :
    request.length ≤ 1026 →
    ((∀ b, readLoop request chunks = .ok b →
      endsCRLF b = true ∧ b.length ≤ 1026 ∧ ∃ t, b = request ++ t ∧ t <+: chunks.flatten)
    ∧ (∀ b, readLoop request chunks = .error b →
      endsCRLF b = false ∧ b.length ≤ 1026 ∧ ∃ t, b = request ++ t ∧ t <+: chunks.flatten)) := by
  induction request, chunks using readLoop.induct with
  | case1 request hcrlf =>
    intro hlen
    constructor
    · intro b hb
      rw [readLoop_nil, if_pos hcrlf] at hb
      injection hb with hb
      subst hb
      exact ⟨hcrlf, hlen, [], by simp, List.nil_prefix⟩
    · intro b hb
      rw [readLoop_nil, if_pos hcrlf] at hb
      exact absurd hb (by simp)
  | case2 request hcrlf =>
    intro hlen
    constructor
    · intro b hb
      rw [readLoop_nil, if_neg hcrlf] at hb
      exact absurd hb (by simp)
    · intro b hb
      rw [readLoop_nil, if_neg hcrlf] at hb
      injection hb with hb
      subst hb
      exact ⟨Bool.of_not_eq_true hcrlf, hlen, [], by simp, List.nil_prefix⟩
  | case3 request c rest taken request' hcrlf =>
    intro hlen
    have hlen' : (request ++ c.take (1026 - request.length)).length ≤ 1026 := by
      have := List.length_take (1026 - request.length) c
      simp only [List.length_append]
      omega
    constructor
    · intro b hb
      rw [readLoop_cons, if_pos hcrlf] at hb
      injection hb with hb
      subst hb
      refine ⟨hcrlf, hlen', c.take (1026 - request.length), rfl, ?_⟩
      exact (List.take_prefix _ c).trans (by simp [List.prefix_append])
    · intro b hb
      rw [readLoop_cons, if_pos hcrlf] at hb
      exact absurd hb (by simp)
  | case4 request c rest taken request' hcrlf htaken =>
    intro hlen
    have hlen' : (request ++ c.take (1026 - request.length)).length ≤ 1026 := by
      have := List.length_take (1026 - request.length) c
      simp only [List.length_append]
      omega
    constructor
    · intro b hb
      rw [readLoop_cons, if_neg hcrlf, if_pos htaken] at hb
      exact absurd hb (by simp)
    · intro b hb
      rw [readLoop_cons, if_neg hcrlf, if_pos htaken] at hb
      injection hb with hb
      subst hb
      refine ⟨Bool.of_not_eq_true hcrlf, hlen', c.take (1026 - request.length), rfl, ?_⟩
      exact (List.take_prefix _ c).trans (by simp [List.prefix_append])
  | case5 request c rest taken request' hcrlf htaken hdrop ih =>
    intro hlen
    have hlen' : (request ++ c.take (1026 - request.length)).length ≤ 1026 := by
      have := List.length_take (1026 - request.length) c
      simp only [List.length_append]
      omega
    have htake_all : c.take (1026 - request.length) = c :=
      List.take_of_length_le (List.drop_eq_nil_iff.mp (List.isEmpty_iff.mp hdrop))
    obtain ⟨ihok, iherr⟩ := ih hlen'
    constructor
    · intro b hb
      rw [readLoop_cons, if_neg hcrlf, if_neg htaken, if_pos hdrop] at hb
      obtain ⟨h1, h2, t, ht, hpre⟩ := ihok b hb
      refine ⟨h1, h2, c.take (1026 - request.length) ++ t, by rw [ht, List.append_assoc], ?_⟩
      rw [htake_all]
      exact prefix_append_of_prefix c hpre
    · intro b hb
      rw [readLoop_cons, if_neg hcrlf, if_neg htaken, if_pos hdrop] at hb
      obtain ⟨h1, h2, t, ht, hpre⟩ := iherr b hb
      refine ⟨h1, h2, c.take (1026 - request.length) ++ t, by rw [ht, List.append_assoc], ?_⟩
      rw [htake_all]
      exact prefix_append_of_prefix c hpre
  | case6 request c rest taken request' hcrlf htaken hdrop ih =>
    intro hlen
    have hlen' : (request ++ c.take (1026 - request.length)).length ≤ 1026 := by
      have := List.length_take (1026 - request.length) c
      simp only [List.length_append]
      omega
    obtain ⟨ihok, iherr⟩ := ih hlen'
    have hflat : c.take (1026 - request.length)
        ++ (c.drop (1026 - request.length) :: rest).flatten = (c :: rest).flatten := by
      simp only [List.flatten_cons]
      rw [← List.append_assoc, List.take_append_drop]
    constructor
    · intro b hb
      rw [readLoop_cons, if_neg hcrlf, if_neg htaken, if_neg hdrop] at hb
      obtain ⟨h1, h2, t, ht, hpre⟩ := ihok b hb
      refine ⟨h1, h2, c.take (1026 - request.length) ++ t, by rw [ht, List.append_assoc], ?_⟩
      rw [← hflat]
      exact prefix_append_of_prefix _ hpre
    · intro b hb
      rw [readLoop_cons, if_neg hcrlf, if_neg htaken, if_neg hdrop] at hb
      obtain ⟨h1, h2, t, ht, hpre⟩ := iherr b hb
      refine ⟨h1, h2, c.take (1026 - request.length) ++ t, by rw [ht, List.append_assoc], ?_⟩
      rw [← hflat]
      exact prefix_append_of_prefix _ hpre

/-! ### Helper lemmas: listing order -/

theorem lexLe_trans : ∀ x y z : List Char,
    lexLe x y = true → lexLe y z = true → lexLe x z = true := by
  intro x
  induction x with
  | nil => intro y z _ _; rfl
  | cons a as ih =>
    intro y z h1 h2
    cases y with
    | nil => simp [lexLe] at h1
    | cons b bs =>
      cases z with
      | nil => simp [lexLe] at h2
      | cons c cs =>
        simp only [lexLe] at h1 h2 ⊢
        by_cases hab : a < b
        · by_cases hbc : b < c
          · simp [lt_trans hab hbc]
          · by_cases hbc' : b = c
            · subst hbc'; simp [hab]
            · simp [hbc, hbc'] at h2
        · by_cases hab' : a = b
          · subst hab'
            rw [if_neg hab, if_pos rfl] at h1
            by_cases hac : a < c
            · simp [hac]
            · by_cases hac' : a = c
              · subst hac'
                rw [if_neg hac, if_pos rfl] at h2 ⊢
                exact ih bs cs h1 h2
              · simp [hac, hac'] at h2
          · simp [hab, hab'] at h1

theorem lexLe_total : ∀ x y : List Char, (lexLe x y || lexLe y x) = true := by
  intro x
  induction x with
  | nil => intro y; simp [lexLe]
  | cons a as ih =>
    intro y
    cases y with
    | nil => simp [lexLe]
    | cons b bs =>
      simp only [lexLe]
      rcases lt_trichotomy a b with h | h | h
      · simp [h]
      · subst h
        simp only [lt_irrefl, if_false, if_pos rfl]
        exact ih bs
      · simp [h, not_lt_of_gt h, ne_of_gt h]

theorem filterMap_entryLine (l : List (List Char × Bool)) :
    l.filterMap entryLine
      = (l.filter (fun e => !(e.1.headD ' ' == '.'))).map
          (fun e => listingLine (if e.2 then e.1 ++ ['/'] else e.1)) := by
  induction l with
  | nil => rfl
  | cons e rest ih =>
    rw [List.filterMap_cons, List.filter_cons]
    by_cases hdot : e.1.head?.getD ' ' = '.'
    · have h1 : entryLine e = none := by simp [entryLine, hdot]
      have h2 : (!(e.1.headD ' ' == '.')) = false := by simp [hdot]
      rw [h1, h2, ih]
      simp
    · have h1 : entryLine e = some (listingLine (if e.2 then e.1 ++ ['/'] else e.1)) := by
        simp [entryLine, hdot]
      have h2 : (!(e.1.headD ' ' == '.')) = true := by simp [hdot]
      rw [h1, h2, ih]
      simp

/-! ### Helper lemma: a resolved request reaches the per-path dispatch -/

theorem send_response_resolved (cfg : Args) (fs : Fs) (mm : FileOptions)
    (mg : List (List Char) → List Char) (u : GemUrl) (p : List (List Char))
    (h : resolvesTo cfg mm u p) :
    send_response cfg fs mm mg u = respondForPath fs mm mg u p := by
  rcases h with ⟨hseg, hp⟩ | ⟨segs, comps, hseg, hres, hp, hrule⟩
  · simp only [send_response]
    rw [hseg, ← hp]
  · simp only [send_response, hseg, hres]
    rw [← hp, hrule]
    simp

/-! ### Claim theorems -/

/-- C1: for every request URL that the resolver accepts (no early 51/52), the
resolved filesystem path is lexically prefixed by the content root, extended by
the vhost subdirectory when more than one hostname is configured, and every
component appended from URL segments is a plain normal name: never `..`, `.`,
empty, or separator-containing (no absolute or drive-like component exists in
the Unix component model), so no sequence of segments can escape the root. -/
theorem c1_resolved_path_confined (cfg : Args) (u : GemUrl) (p : List (List Char))
    (h : resolvePath cfg u = .ok p) :
    cfg.content_dir <+: p
    ∧ (cfg.content_dir ++ hostDir cfg u) <+: p
    ∧ ∀ c ∈ p.drop (cfg.content_dir ++ hostDir cfg u).length, goodName c := by
  cases hseg : urlSegments u with
  | none =>
    simp only [resolvePath, hseg] at h
    injection h with h
    subst h
    refine ⟨⟨hostDir cfg u, rfl⟩, List.prefix_refl _, ?_⟩
    simp
  | some segs =>
    simp only [resolvePath, hseg] at h
    cases hres : resolveFrom [] segs with
    | error e =>
      rw [hres] at h
      simp [Except.map] at h
    | ok comps =>
      rw [hres] at h
      simp only [Except.map] at h
      injection h with h
      subst h
      refine ⟨⟨hostDir cfg u ++ comps, by simp⟩, ?_, ?_⟩
      · exact List.prefix_append _ _
      · rw [List.drop_left]
        exact resolveFrom_goodName segs [] comps (by simp) hres

/-- Witness for C1: the request `gemini://example.org/foo/bar` against content
root `content` resolves to `content/foo/bar`, inside the root. -/
theorem c1_resolved_path_confined_witness :
    [str "content"] <+: [str "content", str "foo", str "bar"]
    ∧ ([str "content"]
        ++ hostDir ⟨[str "content"], [], false⟩
            ⟨str "gemini", [], false, false, some (str "example.org"), none, str "/foo/bar", none⟩)
        <+: [str "content", str "foo", str "bar"]
    ∧ ∀ c ∈ [str "content", str "foo", str "bar"].drop
        ([str "content"]
          ++ hostDir ⟨[str "content"], [], false⟩
              ⟨str "gemini", [], false, false, some (str "example.org"), none, str "/foo/bar", none⟩).length,
        goodName c :=
  c1_resolved_path_confined ⟨[str "content"], [], false⟩
    ⟨str "gemini", [], false, false, some (str "example.org"), none, str "/foo/bar", none⟩
    [str "content", str "foo", str "bar"] rfl

/-- C2: a URL path segment whose percent-decoded text yields more than one
filesystem component, or any special (non-`Normal`) component, or ends in a
path separator, makes the resolver answer 51 (`Not found, sorry.`) without
producing any path (all segments are assumed decodable, as the claim speaks of
their decoded text). -/
theorem c2_bad_segment_rejected (cfg : Args) (fs : Fs) (mm : FileOptions)
    (mg : List (List Char) → List Char) (u : GemUrl) (segs : List (List Char))
    (hseg : urlSegments u = some segs)
    (hdec : ∀ s ∈ segs, (decodeSegment s).isSome)
    (hbad : ∃ s ∈ segs, ∃ d, decodeSegment s = some d ∧ badShape d) :
    resolveFrom [] segs = .error .notFound
    ∧ send_response cfg fs mm mg u
        = (some ⟨51, str "Not found, sorry.", none⟩, []) := by
  have h51 := resolveFrom_notFound segs [] hdec hbad
  exact ⟨h51, by simp only [send_response, hseg, h51]⟩

/-- Witness for C2: `gemini://h/a%2Fb` (an escaped separator inside one
segment) is answered with 51. -/
theorem c2_bad_segment_rejected_witness :
    resolveFrom [] [str "a%2Fb"] = .error .notFound
    ∧ send_response ⟨[str "content"], [], false⟩
        ⟨fun _ => false, fun _ => false, fun _ => false, fun _ => []⟩
        ⟨fun _ => false, fun _ => .Parameters []⟩ (fun _ => [])
        ⟨str "gemini", [], false, false, some (str "h"), none, str "/a%2Fb", none⟩
        = (some ⟨51, str "Not found, sorry.", none⟩, []) :=
  c2_bad_segment_rejected ⟨[str "content"], [], false⟩
    ⟨fun _ => false, fun _ => false, fun _ => false, fun _ => []⟩
    ⟨fun _ => false, fun _ => .Parameters []⟩ (fun _ => [])
    ⟨str "gemini", [], false, false, some (str "h"), none, str "/a%2Fb", none⟩
    [str "a%2Fb"] rfl (by decide) (by decide)

/-- C3 counterexample: the claim says an empty segment (zero decoded
components) is rejected with 51, but the code's `None => ()` arm skips it: the
request `gemini://h/a//b.gmi` contains the empty segment, resolves to
`content/a/b.gmi`, and is served with status 20. -/
theorem c3_empty_segment_counterexample :
    ([] ∈ [str "a", ([] : List Char), str "b.gmi"]
      ∧ decodeSegment [] = some [] ∧ pathComponents [] = [])
    ∧ resolveFrom [] [str "a", [], str "b.gmi"] = .ok [str "a", str "b.gmi"]
    ∧ (send_response ⟨[str "content"], [], false⟩
        ⟨fun p => p = [str "content", str "a", str "b.gmi"], fun _ => false,
         fun p => p = [str "content", str "a", str "b.gmi"], fun _ => []⟩
        ⟨fun _ => false, fun _ => .Parameters []⟩ (fun _ => str "text/plain")
        ⟨str "gemini", [], false, false, some (str "h"), none, str "/a//b.gmi", none⟩).1
      = some ⟨20, str "text/gemini", some (.file [str "content", str "a", str "b.gmi"])⟩ := by
  refine ⟨⟨by decide, rfl, rfl⟩, rfl, ?_⟩
  rfl

/-- C3 (amended): a URL path segment whose percent-decoded text yields zero
filesystem components (the empty segment) is skipped by the resolver — it
contributes no component and causes no rejection — rather than answered
with 51. -/
theorem c3_empty_segment_skipped (acc : List (List Char)) (xs ys : List (List Char))
    (s : List Char) (hs : decodeSegment s = some []) :
    resolveFrom acc (xs ++ s :: ys) = resolveFrom acc (xs ++ ys) := by
  induction xs generalizing acc with
  | nil =>
    simp only [List.nil_append]
    have hps : processSegment acc s = .ok acc := by
      unfold processSegment
      rw [hs]
      rfl
    conv_lhs => unfold resolveFrom
    rw [hps]
  | cons x xs ih =>
    simp only [List.cons_append]
    conv_lhs => unfold resolveFrom
    conv_rhs => unfold resolveFrom
    cases hx : processSegment acc x with
    | error e => rfl
    | ok acc' => exact ih acc'

/-- Witness for C3 (amended): skipping the empty segment in `a//b`. -/
theorem c3_empty_segment_skipped_witness :
    resolveFrom [] ([str "a"] ++ [] :: [str "b"]) = resolveFrom [] ([str "a"] ++ [str "b"]) :=
  c3_empty_segment_skipped [] [str "a"] [str "b"] [] rfl

/-- C4: whenever more than 1024 bytes arrive before any CR LF terminator (no
terminator ends within the 1026-byte window — equivalently the connection
closes or fills the buffer before one is seen), the parser answers
`59 Request ended unexpectedly`, the handler performs no filesystem access at
all, and the data retained never exceeds the fixed 1026-byte buffer. -/
theorem c4_overlong_request_rejected (urlParse : List Char → Option GemUrl)
    (mg : List (List Char) → List Char) (cfg : Args) (fs : Fs) (mm : FileOptions)
    (localPort : Nat) (chunks : List (List Nat))
    (h : earlyTerminator chunks.flatten = false ∨ ∃ b, readLoop [] chunks = .error b) :
    handle urlParse mg cfg fs mm localPort chunks
      = (some ⟨59, str "Request ended unexpectedly", none⟩, [])
    ∧ readBufLen chunks ≤ 1026 := by
  have herr : ∃ b, readLoop [] chunks = .error b := by
    rcases h with h | h
    · cases hres : readLoop [] chunks with
      | error b => exact ⟨b, rfl⟩
      | ok b =>
        obtain ⟨hok, _⟩ := readLoop_spec [] chunks (by simp)
        obtain ⟨hcrlf, hblen, t, hbt, hpre⟩ := hok b hres
        rw [List.nil_append] at hbt
        subst hbt
        have htake : b = chunks.flatten.take b.length := List.prefix_iff_eq_take.mp hpre
        have hmem : b.length ∈ List.range 1027 := List.mem_range.mpr (by omega)
        have hne := List.any_eq_false.mp h _ hmem
        rw [← htake] at hne
        exact absurd hcrlf hne
    · exact h
  obtain ⟨b, hb⟩ := herr
  constructor
  · simp only [handle, parse_request, hb]
  · unfold readBufLen
    rw [hb]
    exact ((readLoop_spec [] chunks (by simp)).2 b hb).2.1

set_option maxRecDepth 4096 in
/-- Witness for C4: a request consisting of a lone CR and then end-of-stream
is answered 59 with no filesystem access. -/
theorem c4_overlong_request_rejected_witness :
    handle (fun _ => none) (fun _ => []) ⟨[], [], false⟩
      ⟨fun _ => false, fun _ => false, fun _ => false, fun _ => []⟩
      ⟨fun _ => false, fun _ => .Parameters []⟩ 1965 [[13]]
      = (some ⟨59, str "Request ended unexpectedly", none⟩, [])
    ∧ readBufLen [[13]] ≤ 1026 :=
  c4_overlong_request_rejected (fun _ => none) (fun _ => []) ⟨[], [], false⟩
    ⟨fun _ => false, fun _ => false, fun _ => false, fun _ => []⟩
    ⟨fun _ => false, fun _ => .Parameters []⟩ 1965 [[13]] (Or.inl (by decide))

/-- C10: the parser accepts only when a read leaves CR LF as the final two
buffered bytes; a client that sends an otherwise-valid request line with extra
bytes after the CR LF in the same chunk and then closes the connection gets
`59 Request ended unexpectedly` instead of a response to that line. -/
theorem c10_terminator_only_at_chunk_end (urlParse : List Char → Option GemUrl)
    (mg : List (List Char) → List Char) (cfg : Args) (fs : Fs) (mm : FileOptions)
    (localPort : Nat) :
    (∀ chunks b, readLoop [] chunks = .ok b → endsCRLF b = true)
    ∧ ∀ line extra : List Nat, extra ≠ [] →
        endsCRLF ((line ++ [13, 10] ++ extra).take 1026) = false →
        handle urlParse mg cfg fs mm localPort [line ++ [13, 10] ++ extra]
          = (some ⟨59, str "Request ended unexpectedly", none⟩, []) := by
  constructor
  · intro chunks b hb
    exact ((readLoop_spec [] chunks (by simp)).1 b hb).1
  · intro line extra hne hcrlf
    set c := line ++ [13, 10] ++ extra with hc
    have hcne : c ≠ [] := by
      rw [hc]
      simp
    have htake_ne : c.take 1026 ≠ [] := by
      intro h0
      rcases List.take_eq_nil_iff.mp h0 with h' | h'
      · omega
      · exact hcne h'
    have hloop : readLoop [] [c] = .error (c.take 1026) := by
      rw [readLoop_cons]
      simp only [List.length_nil, Nat.sub_zero, List.nil_append]
      rw [if_neg (by rw [hcrlf]; simp), if_neg (by simp [List.isEmpty_iff, htake_ne])]
      by_cases hd : (c.drop 1026).isEmpty = true
      · rw [if_pos hd, readLoop_nil, if_neg (by rw [hcrlf]; simp)]
      · rw [if_neg hd, readLoop_cons]
        have hlen1026 : (c.take 1026).length = 1026 := by
          have hgt : 1026 < c.length := by
            by_contra hle
            exact hd (List.isEmpty_iff.mpr (List.drop_eq_nil_iff.mpr (by omega)))
          rw [List.length_take]
          omega
        rw [hlen1026]
        simp only [Nat.sub_self, List.take_zero, List.append_nil]
        rw [if_neg (by rw [hcrlf]; simp), if_pos List.isEmpty_nil]
    simp only [handle, parse_request, hloop]

/-- Witness for C10: the single chunk `g\r\nx` followed by end-of-stream is
answered 59 although it contains a complete CR LF-terminated line. -/
theorem c10_terminator_only_at_chunk_end_witness :
    handle (fun _ => none) (fun _ => []) ⟨[], [], false⟩
      ⟨fun _ => false, fun _ => false, fun _ => false, fun _ => []⟩
      ⟨fun _ => false, fun _ => .Parameters []⟩ 1965 [[103, 13, 10, 120]]
      = (some ⟨59, str "Request ended unexpectedly", none⟩, []) :=
  (c10_terminator_only_at_chunk_end (fun _ => none) (fun _ => []) ⟨[], [], false⟩
    ⟨fun _ => false, fun _ => false, fun _ => false, fun _ => []⟩
    ⟨fun _ => false, fun _ => .Parameters []⟩ 1965).2 [103] [120] (by decide) (by decide)

/-- C5 counterexample: the hiding check inspects the raw, still
percent-encoded segments.  Requesting `/%2Ehidden` resolves to
`content/.hidden` — a dotted segment in the resolved path — yet with hiding
enabled (`serve_secret` off) and no metadata override, the file is served with
status 20 instead of being refused with 52. -/
theorem c5_encoded_dot_counterexample :
    resolveFrom [] [str "%2Ehidden"] = .ok [str ".hidden"]
    ∧ (str ".hidden").headD ' ' = '.'
    ∧ (send_response ⟨[str "content"], [], false⟩
        ⟨fun p => p = [str "content", str ".hidden"], fun _ => false,
         fun p => p = [str "content", str ".hidden"], fun _ => []⟩
        ⟨fun _ => false, fun _ => .Parameters []⟩ (fun _ => str "application/octet-stream")
        ⟨str "gemini", [], false, false, some (str "h"), none, str "/%2Ehidden", none⟩).1
      = some ⟨20, str "application/octet-stream",
              some (.file [str "content", str ".hidden"])⟩ :=
  ⟨rfl, rfl, rfl⟩

/-- C5 (amended): the hiding rule triggers on the raw URL segments: when
secret-file serving is disabled, no metadata override matches the resolved
path, and some raw segment starts with `.`, the response is 52; when an
override exists or secret serving is enabled, the request proceeds to the
normal per-path dispatch (a dotted name reached only through percent-encoding
does not trigger the rule, per the counterexample). -/
theorem c5_raw_dotted_hiding (cfg : Args) (fs : Fs) (mm : FileOptions)
    (mg : List (List Char) → List Char) (u : GemUrl) (segs comps : List (List Char))
    (hseg : urlSegments u = some segs)
    (hres : resolveFrom [] segs = .ok comps) :
    (cfg.serve_secret = false →
      mm.hasRuleFor (cfg.content_dir ++ hostDir cfg u ++ comps) = false →
      segs.any (fun s => s.headD ' ' == '.') = true →
      send_response cfg fs mm mg u
        = (some ⟨52, str "If I told you, it would not be a secret.", none⟩, []))
    ∧ ((cfg.serve_secret = true
        ∨ mm.hasRuleFor (cfg.content_dir ++ hostDir cfg u ++ comps) = true) →
      send_response cfg fs mm mg u
        = respondForPath fs mm mg u (cfg.content_dir ++ hostDir cfg u ++ comps)) := by
  constructor
  · intro h1 h2 h3
    simp only [send_response, hseg, hres]
    rw [if_pos (by rw [h1, h2, h3]; rfl)]
  · intro h
    apply send_response_resolved
    right
    refine ⟨segs, comps, hseg, hres, rfl, ?_⟩
    rcases h with h | h
    · rw [h]
      rfl
    · rw [h]
      simp

/-- Witness for C5 (amended): `/.hidden` with hiding on and no override is
refused with 52. -/
theorem c5_raw_dotted_hiding_witness :
    send_response ⟨[str "content"], [], false⟩
      ⟨fun _ => false, fun _ => false, fun _ => false, fun _ => []⟩
      ⟨fun _ => false, fun _ => .Parameters []⟩ (fun _ => [])
      ⟨str "gemini", [], false, false, some (str "h"), none, str "/.hidden", none⟩
      = (some ⟨52, str "If I told you, it would not be a secret.", none⟩, []) :=
  (c5_raw_dotted_hiding ⟨[str "content"], [], false⟩
    ⟨fun _ => false, fun _ => false, fun _ => false, fun _ => []⟩
    ⟨fun _ => false, fun _ => .Parameters []⟩ (fun _ => [])
    ⟨str "gemini", [], false, false, some (str "h"), none, str "/.hidden", none⟩
    [str ".hidden"] [str ".hidden"] rfl rfl).1 rfl rfl (by decide)

/-- C6 counterexample: for a directory request carrying a query, the redirect
meta re-serializes the URL with the separator appended to the path, leaving the
query at the end — which differs from the request URL with a separator
appended, as the claim states it. -/
theorem c6_query_redirect_counterexample :
    (send_response ⟨[str "content"], [], false⟩
        ⟨fun p => p = [str "content", str "docs"], fun p => p = [str "content", str "docs"],
         fun _ => false, fun _ => []⟩
        ⟨fun _ => false, fun _ => .Parameters []⟩ (fun _ => [])
        ⟨str "gemini", [], false, false, some (str "example.org"), none,
          str "/docs", some (str "q")⟩).1
      = some ⟨31, str "gemini://example.org/docs/?q", none⟩
    ∧ urlAsStr ⟨str "gemini", [], false, false, some (str "example.org"), none,
          str "/docs", some (str "q")⟩ ++ ['/']
        = str "gemini://example.org/docs?q/"
    ∧ str "gemini://example.org/docs/?q" ≠ str "gemini://example.org/docs?q/" :=
  ⟨rfl, rfl, by decide⟩

/-- C6 (amended): a request resolving to an existing directory whose URL path
is non-empty and does not end in a separator is answered with status 31, no
body, and a meta equal to the URL re-serialized after appending a trailing
separator to its path; when the URL carries no query this equals the request
URL with a trailing separator appended. -/
theorem c6_directory_redirect (cfg : Args) (fs : Fs) (mm : FileOptions)
    (mg : List (List Char) → List Char) (u : GemUrl) (p : List (List Char))
    (hres : resolvesTo cfg mm u p)
    (hex : fs.pathExists p = true) (hdir : fs.isDir p = true)
    (hne : u.pathRaw ≠ []) (hslash : endsWithSep u.pathRaw = false) :
    send_response cfg fs mm mg u
      = (some ⟨31, urlAsStr (setPath u (u.pathRaw ++ ['/'])), none⟩, [.stat p])
    ∧ (u.query = none →
        urlAsStr (setPath u (u.pathRaw ++ ['/'])) = urlAsStr u ++ ['/']) := by
  constructor
  · rw [send_response_resolved cfg fs mm mg u p hres]
    unfold respondForPath
    rw [if_pos (by rw [hex, hdir]; rfl)]
    rw [if_neg (by rw [hslash]; simp [List.isEmpty_iff, hne])]
  · intro hq
    simp [urlAsStr, setPath, hq]

/-- Witness for C6 (amended): `gemini://example.org/docs` for an existing
directory redirects to `gemini://example.org/docs/`. -/
theorem c6_directory_redirect_witness :
    send_response ⟨[str "content"], [], false⟩
      ⟨fun p => p = [str "content", str "docs"], fun p => p = [str "content", str "docs"],
       fun _ => false, fun _ => []⟩
      ⟨fun _ => false, fun _ => .Parameters []⟩ (fun _ => [])
      ⟨str "gemini", [], false, false, some (str "example.org"), none, str "/docs", none⟩
      = (some ⟨31, str "gemini://example.org/docs/", none⟩,
         [.stat [str "content", str "docs"]])
    ∧ ((⟨str "gemini", [], false, false, some (str "example.org"), none,
          str "/docs", none⟩ : GemUrl).query = none →
        urlAsStr (setPath ⟨str "gemini", [], false, false, some (str "example.org"), none,
          str "/docs", none⟩ (str "/docs" ++ ['/']))
          = urlAsStr ⟨str "gemini", [], false, false, some (str "example.org"), none,
              str "/docs", none⟩ ++ ['/']) :=
  c6_directory_redirect ⟨[str "content"], [], false⟩
    ⟨fun p => p = [str "content", str "docs"], fun p => p = [str "content", str "docs"],
     fun _ => false, fun _ => []⟩
    ⟨fun _ => false, fun _ => .Parameters []⟩ (fun _ => [])
    ⟨str "gemini", [], false, false, some (str "example.org"), none, str "/docs", none⟩
    [str "content", str "docs"]
    (Or.inr ⟨[str "docs"], [str "docs"], rfl, rfl, rfl, rfl⟩)
    rfl rfl (by decide) rfl

/-- C7: a request resolving to an existing directory (trailing separator or
empty path) with no index document is answered with the generated listing when
the opt-in marker file `.directory-listing-ok` exists, and with
`51 Directory index disabled.` when it does not. -/
theorem c7_directory_index_listing (cfg : Args) (fs : Fs) (mm : FileOptions)
    (mg : List (List Char) → List Char) (u : GemUrl) (p : List (List Char))
    (hres : resolvesTo cfg mm u p)
    (hex : fs.pathExists p = true) (hdir : fs.isDir p = true)
    (hslash : endsWithSep u.pathRaw = true ∨ u.pathRaw = [])
    (hnoindex : fs.pathExists (p ++ [str "index.gmi"]) = false) :
    (fs.pathExists (p ++ [str ".directory-listing-ok"]) = true →
      send_response cfg fs mm mg u
        = (some ⟨20, str "text/gemini", some (.listing (list_directory fs p))⟩,
           [.stat p, .checkExists (p ++ [str "index.gmi"]),
            .checkExists (p ++ [str ".directory-listing-ok"]), .readDir p]))
    ∧ (fs.pathExists (p ++ [str ".directory-listing-ok"]) = false →
      send_response cfg fs mm mg u
        = (some ⟨51, str "Directory index disabled.", none⟩,
           [.stat p, .checkExists (p ++ [str "index.gmi"]),
            .checkExists (p ++ [str ".directory-listing-ok"])])) := by
  have hbase := send_response_resolved cfg fs mm mg u p hres
  have hcond : (endsWithSep u.pathRaw || u.pathRaw.isEmpty) = true := by
    rcases hslash with h | h
    · rw [h]
      rfl
    · rw [h]
      simp
  constructor
  · intro hmark
    rw [hbase]
    unfold respondForPath
    rw [if_pos (by rw [hex, hdir]; rfl), if_pos hcond, if_neg (by rw [hnoindex]; simp),
      if_pos hmark]
  · intro hmark
    rw [hbase]
    unfold respondForPath
    rw [if_pos (by rw [hex, hdir]; rfl), if_pos hcond, if_neg (by rw [hnoindex]; simp),
      if_neg (by rw [hmark]; simp)]

/-- Witness for C7: the content root itself, requested as `/`, with no index
document but with the listing marker, yields the sorted listing. -/
theorem c7_directory_index_listing_witness :
    send_response ⟨[str "content"], [], false⟩
      ⟨fun p => p = [str "content"] || p = [str "content", str ".directory-listing-ok"],
       fun p => p = [str "content"], fun _ => false, fun _ => [(str "a.gmi", false)]⟩
      ⟨fun _ => false, fun _ => .Parameters []⟩ (fun _ => [])
      ⟨str "gemini", [], false, false, some (str "h"), none, str "/", none⟩
      = (some ⟨20, str "text/gemini",
          some (.listing (list_directory
            ⟨fun p => p = [str "content"] || p = [str "content", str ".directory-listing-ok"],
             fun p => p = [str "content"], fun _ => false, fun _ => [(str "a.gmi", false)]⟩
            [str "content"]))⟩,
         [.stat [str "content"], .checkExists ([str "content"] ++ [str "index.gmi"]),
          .checkExists ([str "content"] ++ [str ".directory-listing-ok"]),
          .readDir [str "content"]]) :=
  (c7_directory_index_listing ⟨[str "content"], [], false⟩
    ⟨fun p => p = [str "content"] || p = [str "content", str ".directory-listing-ok"],
     fun p => p = [str "content"], fun _ => false, fun _ => [(str "a.gmi", false)]⟩
    ⟨fun _ => false, fun _ => .Parameters []⟩ (fun _ => [])
    ⟨str "gemini", [], false, false, some (str "h"), none, str "/", none⟩
    [str "content"]
    (Or.inr ⟨[[]], [], rfl, rfl, rfl, rfl⟩)
    rfl rfl (Or.inl rfl) rfl).1 rfl

/-- C8: a directory listing omits entries whose names start with `.`, shows
subdirectory names with a trailing separator, emits exactly one link line per
remaining entry (with the visible name percent-encoded as the link target
inside `listingLine`), and is sorted lexicographically by emitted text, so it
is independent of filesystem enumeration order. -/
theorem c8_listing_properties (fs : Fs) (p : List (List Char)) :
    List.Sorted (fun a b => lexLe a b = true) (list_directory fs p)
    ∧ (list_directory fs p).length
        = ((fs.entries p).filter (fun e => !(e.1.headD ' ' == '.'))).length
    ∧ ∀ l, l ∈ list_directory fs p ↔
        ∃ e ∈ fs.entries p, (e.1.headD ' ' == '.') = false
          ∧ l = listingLine (if e.2 then e.1 ++ ['/'] else e.1) := by
  refine ⟨?_, ?_, ?_⟩
  · unfold list_directory
    exact List.sorted_mergeSort lexLe_trans lexLe_total _
  · unfold list_directory
    rw [List.length_mergeSort, filterMap_entryLine, List.length_map]
  · intro l
    unfold list_directory
    rw [List.mem_mergeSort, filterMap_entryLine]
    constructor
    · intro hl
      obtain ⟨e, he, hle⟩ := List.mem_map.mp hl
      have hef := List.mem_filter.mp he
      exact ⟨e, hef.1, by simpa using hef.2, hle.symm⟩
    · rintro ⟨e, he, hdot, hle⟩
      apply List.mem_map.mpr
      exact ⟨e, List.mem_filter.mpr ⟨he, by simpa using hdot⟩, hle.symm⟩

/-- C9: when the metadata lookup that `send_response` performs for its final
target path yields a `FullHeader` override, exactly that status and meta are
sent, with no body and no attempt to open the file. -/
theorem c9_full_header_short_circuit (cfg : Args) (fs : Fs) (mm : FileOptions)
    (mg : List (List Char) → List Char) (u : GemUrl) (p q : List (List Char))
    (status : Nat) (meta : List Char)
    (hres : resolvesTo cfg mm u p)
    (htarget : metaTarget fs u p = some q)
    (hdata : mm.get q = .FullHeader status meta) :
    (send_response cfg fs mm mg u).1 = some ⟨status, meta, none⟩
    ∧ ∀ r, FsOp.openFile r ∉ (send_response cfg fs mm mg u).2 := by
  rw [send_response_resolved cfg fs mm mg u p hres]
  unfold metaTarget at htarget
  by_cases hdirEx : (fs.pathExists p && fs.isDir p) = true
  · rw [if_pos hdirEx] at htarget
    by_cases hslash : (endsWithSep u.pathRaw || u.pathRaw.isEmpty) = true
    · rw [if_pos hslash] at htarget
      by_cases hidx : fs.pathExists (p ++ [str "index.gmi"]) = true
      · rw [if_pos hidx] at htarget
        injection htarget with htarget
        subst htarget
        unfold respondForPath
        rw [if_pos hdirEx, if_pos hslash, if_pos hidx]
        simp only [metaStage, hdata]
        refine ⟨by trivial, ?_⟩
        intro r
        simp
      · rw [if_neg hidx] at htarget
        exact absurd htarget (by simp)
    · rw [if_neg hslash] at htarget
      exact absurd htarget (by simp)
  · rw [if_neg hdirEx] at htarget
    injection htarget with htarget
    subst htarget
    unfold respondForPath
    rw [if_neg hdirEx]
    simp only [metaStage, hdata]
    refine ⟨by trivial, ?_⟩
    intro r
    simp

/-- Witness for C9: a `FullHeader 40 backoff` override is sent verbatim and the
file is never opened. -/
theorem c9_full_header_short_circuit_witness :
    (send_response ⟨[str "content"], [], false⟩
        ⟨fun _ => false, fun _ => false, fun _ => false, fun _ => []⟩
        ⟨fun _ => false, fun _ => .FullHeader 40 (str "backoff")⟩ (fun _ => [])
        ⟨str "gemini", [], false, false, some (str "h"), none, str "/x", none⟩).1
      = some ⟨40, str "backoff", none⟩
    ∧ ∀ r, FsOp.openFile r ∉ (send_response ⟨[str "content"], [], false⟩
        ⟨fun _ => false, fun _ => false, fun _ => false, fun _ => []⟩
        ⟨fun _ => false, fun _ => .FullHeader 40 (str "backoff")⟩ (fun _ => [])
        ⟨str "gemini", [], false, false, some (str "h"), none, str "/x", none⟩).2 :=
  c9_full_header_short_circuit ⟨[str "content"], [], false⟩
    ⟨fun _ => false, fun _ => false, fun _ => false, fun _ => []⟩
    ⟨fun _ => false, fun _ => .FullHeader 40 (str "backoff")⟩ (fun _ => [])
    ⟨str "gemini", [], false, false, some (str "h"), none, str "/x", none⟩
    [str "content", str "x"] [str "content", str "x"] 40 (str "backoff")
    (Or.inr ⟨[str "x"], [str "x"], rfl, rfl, rfl, rfl⟩) rfl rfl
